import Mathlib

/-
Formal model of `auto_translate_ko_po.py`, a script that fills missing Korean
translations in a gettext catalog: a heuristic classifier decides which
entries are still effectively English, a reconciler aligns the English and
Korean catalogs by `msgid`, a batch orchestrator sends pending texts to a
translation backend in batches of 50 and writes the ordered results back,
and a final step saves the catalog.  Python strings are modelled by `String`
(lists of Unicode code points), Python dicts by association lists with
replace-or-append update, the mutable entry objects shared between the
catalog list and the `msgid` lookup dict by list indices, and the fallible
result-indexing of the batch loop by `Option`.
-/

set_option maxHeartbeats 1600000

/-- Unicode whitespace, the character set stripped by Python's `str.strip`
and matched by the regex class `\s` (CPython's `Py_UNICODE_ISSPACE`): the
ASCII whitespace and separator controls together with the Unicode space
separators.  This list is complete. -/
def pyIsSpace (c : Char) : Bool :=
  decide ((9 ≤ c.toNat ∧ c.toNat ≤ 13) ∨ (0x1C ≤ c.toNat ∧ c.toNat ≤ 0x1F) ∨
    c.toNat = 0x20 ∨ c.toNat = 0x85 ∨ c.toNat = 0xA0 ∨ c.toNat = 0x1680 ∨
    (0x2000 ≤ c.toNat ∧ c.toNat ≤ 0x200A) ∨ c.toNat = 0x2028 ∨ c.toNat = 0x2029 ∨
    c.toNat = 0x202F ∨ c.toNat = 0x205F ∨ c.toNat = 0x3000)

/-- Decimal digits, the regex class `\d` (Unicode category Nd).  Fragment of
the Unicode database restricted to the blocks used in this development:
ASCII, Arabic-Indic, extended Arabic-Indic, Devanagari and fullwidth digits;
every code point listed here is a genuine Nd digit. -/
def pyIsDigitNd (c : Char) : Bool :=
  decide ((0x30 ≤ c.toNat ∧ c.toNat ≤ 0x39) ∨ (0x660 ≤ c.toNat ∧ c.toNat ≤ 0x669) ∨
    (0x6F0 ≤ c.toNat ∧ c.toNat ≤ 0x6F9) ∨ (0x966 ≤ c.toNat ∧ c.toNat ≤ 0x96F) ∨
    (0xFF10 ≤ c.toNat ∧ c.toNat ≤ 0xFF19))

/-- Word characters, the regex class `\w` (alphanumeric Unicode code points
plus the underscore; `\W` is the complement).  Fragment of the Unicode
database restricted to the blocks used in this development: ASCII word
characters, the Latin-1 and extended Latin letters (including the Latin-1
superscripts, fractions, ordinal indicators and micro sign, which are
alphanumeric), Greek and basic Cyrillic letters, the digit blocks above,
Hangul jamo and syllables, kana and unified CJK ideographs.  Every code
point listed here is a genuine `\w` character. -/
def pyIsWordChar (c : Char) : Bool :=
  decide ((0x30 ≤ c.toNat ∧ c.toNat ≤ 0x39) ∨ (0x41 ≤ c.toNat ∧ c.toNat ≤ 0x5A) ∨
    c.toNat = 0x5F ∨ (0x61 ≤ c.toNat ∧ c.toNat ≤ 0x7A) ∨
    c.toNat = 0xAA ∨ (0xB2 ≤ c.toNat ∧ c.toNat ≤ 0xB3) ∨ c.toNat = 0xB5 ∨
    (0xB9 ≤ c.toNat ∧ c.toNat ≤ 0xBA) ∨ (0xBC ≤ c.toNat ∧ c.toNat ≤ 0xBE) ∨
    (0xC0 ≤ c.toNat ∧ c.toNat ≤ 0xD6) ∨ (0xD8 ≤ c.toNat ∧ c.toNat ≤ 0xF6) ∨
    (0xF8 ≤ c.toNat ∧ c.toNat ≤ 0x2C1) ∨
    (0x391 ≤ c.toNat ∧ c.toNat ≤ 0x3A1) ∨ (0x3B1 ≤ c.toNat ∧ c.toNat ≤ 0x3C9) ∨
    (0x410 ≤ c.toNat ∧ c.toNat ≤ 0x44F) ∨
    (0x660 ≤ c.toNat ∧ c.toNat ≤ 0x669) ∨ (0x6F0 ≤ c.toNat ∧ c.toNat ≤ 0x6F9) ∨
    (0x966 ≤ c.toNat ∧ c.toNat ≤ 0x96F) ∨
    (0x1100 ≤ c.toNat ∧ c.toNat ≤ 0x11FF) ∨
    (0x3041 ≤ c.toNat ∧ c.toNat ≤ 0x3096) ∨ (0x30A1 ≤ c.toNat ∧ c.toNat ≤ 0x30FA) ∨
    (0x4E00 ≤ c.toNat ∧ c.toNat ≤ 0x9FFF) ∨
    (0xAC00 ≤ c.toNat ∧ c.toNat ≤ 0xD7A3) ∨
    (0xFF10 ≤ c.toNat ∧ c.toNat ≤ 0xFF19))

/-- Membership in the regex character class `[\x00-\x7F\s\d\W]` of
`ASCII_RE` (line 26 of the source): a 7-bit code point, a whitespace
character, a decimal digit, or any non-word character. -/
def asciiClassChar (c : Char) : Bool :=
  decide (c.toNat ≤ 0x7F) || pyIsSpace c || pyIsDigitNd c || !(pyIsWordChar c)

/-- Semantics of `re.match(ASCII_RE, text)` for the pattern
`^[\x00-\x7F\s\d\W]+$`: the greedy one-or-more repetition of the class must
cover the string up to a position where `$` matches, and `$` matches at the
end of the string or just before a trailing newline. -/
def ASCII_RE_match (cs : List Char) : Bool :=
  (!cs.isEmpty && cs.all asciiClassChar) ||
  (decide (cs.getLast? = some (Char.ofNat 10)) && !cs.dropLast.isEmpty &&
    cs.dropLast.all asciiClassChar)

/-- Python `text.strip()` on the character list: drop whitespace from the
front, then from the back. -/
def pyStripList (cs : List Char) : List Char :=
  ((cs.dropWhile pyIsSpace).reverse.dropWhile pyIsSpace).reverse

/-- Lines 29-39 of the source: `is_likely_english` returns `true` when the
stripped text is empty, or when `ASCII_RE` matches the text. -/
def is_likely_english (text : String) : Bool :=
  if (pyStripList text.data).isEmpty then true
  else if ASCII_RE_match text.data then true
  else false

/-- Python `a or b` for strings: `a` unless `a` is empty (falsy). -/
def pyOrStr (a b : String) : String :=
  if a = "" then b else a

/-- One catalog entry as used by the script: `polib.POEntry` restricted to
the fields the script reads or writes.  `msgstr_plural` is a Python dict
from plural index to text, modelled as an association list. -/
structure POEntry where
  msgid : String
  msgid_plural : String
  msgstr : String
  msgstr_plural : List (Nat × String)
  occurrences : List (String × String)
  comment : String
  obsolete : Bool
deriving DecidableEq, Repr, Inhabited

/-- Python dict lookup for the `msgid -> entry` map (entries modelled by
their index in the catalog list). -/
def dGet : List (String × Nat) → String → Option Nat
  | [], _ => none
  | p :: d, k => if p.1 = k then some p.2 else dGet d k

/-- Python dict assignment: replace the binding if the key is present, else
append a new binding. -/
def dSet : List (String × Nat) → String → Nat → List (String × Nat)
  | [], k, v => [(k, v)]
  | p :: d, k, v => if p.1 = k then (k, v) :: d else p :: dSet d k v

/-- Python `d.get(k, default)` on the plural-forms dict. -/
def pGet : List (Nat × String) → Nat → String → String
  | [], _, dflt => dflt
  | p :: d, k, dflt => if p.1 = k then p.2 else pGet d k dflt

/-- Python `d[k] = v` on the plural-forms dict. -/
def pSet : List (Nat × String) → Nat → String → List (Nat × String)
  | [], k, v => [(k, v)]
  | p :: d, k, v => if p.1 = k then (k, v) :: d else p :: pSet d k v

/-- The dict comprehension `{e.msgid: e for e in ko_po}` (line 75), keeping
for each `msgid` the last entry that carries it; entries are recorded by
index. -/
def buildKoMapAux : List (String × Nat) → Nat → List POEntry → List (String × Nat)
  | d, _, [] => d
  | d, i, e :: es => buildKoMapAux (dSet d e.msgid i) (i + 1) es

/-- Initial `msgid -> entry` lookup for the target catalog. -/
def buildKoMap (ko : List POEntry) : List (String × Nat) :=
  buildKoMapAux [] 0 ko

/-- Kind tag of a pending translation task (the `"singular"` / `"plural"`
marker strings of the source tuples). -/
inductive TaskKind where
  | singular
  | plural
deriving DecidableEq, Repr, Inhabited

/-- One element of the `targets` work list: the tuple
`(kind, en_entry, ko_entry)`, with the target entry recorded by its index in
the target catalog list (the Python tuple holds the shared mutable entry
object). -/
structure TransTask where
  kind : TaskKind
  en : POEntry
  koIdx : Nat
deriving DecidableEq, Repr, Inhabited

/-- State threaded through the reconciliation loop: the target catalog
entry list, the `msgid` lookup dict, and the accumulated work list. -/
structure RecState where
  ko : List POEntry
  koMap : List (String × Nat)
  targets : List TransTask
deriving Repr

/-- Lines 89-94: the skeleton entry created when the target catalog has no
entry for a source `msgid`.  `polib.POEntry` defaults the remaining fields
to empty / false. -/
def newKoEntry (en : POEntry) : POEntry :=
  { msgid := en.msgid
    msgid_plural := en.msgid_plural
    msgstr := ""
    msgstr_plural := []
    occurrences := en.occurrences
    comment := en.comment
    obsolete := false }

/-- Lines 98-111: decide whether the pair (source entry, target entry)
needs translation, and of which kind.  A plural-capable entry is queued when
both plural slots (missing slot read as `""`; `s or ""` is the identity on
strings) look untranslated; a singular entry is queued when
`ko.msgstr or en.msgstr or ""` looks untranslated. -/
def classifyTask (en koE : POEntry) : Option TaskKind :=
  if en.msgid_plural ≠ "" then
    if is_likely_english (pGet koE.msgstr_plural 0 "") &&
       is_likely_english (pGet koE.msgstr_plural 1 "") then
      some TaskKind.plural
    else none
  else
    if is_likely_english (pyOrStr koE.msgstr (pyOrStr en.msgstr "")) then
      some TaskKind.singular
    else none

/-- Work-list contribution of one source entry, given the target entry it
resolved to and that entry's index. -/
def taskListFor (en koE : POEntry) (idx : Nat) : List TransTask :=
  match classifyTask en koE with
  | some k => [{ kind := k, en := en, koIdx := idx }]
  | none => []

/-- Common tail of the reconciliation step once the target entry's index,
the possibly extended catalog and the possibly extended lookup dict are
known. -/
def reconcileWith (st : RecState) (en : POEntry) (idx : Nat) (ko1 : List POEntry)
    (map1 : List (String × Nat)) : RecState :=
  { ko := ko1, koMap := map1,
    targets := st.targets ++ taskListFor en (ko1.getD idx default) idx }

/-- Lines 81-111, body of the reconciliation loop for one source entry:
skip empty-`msgid` or obsolete entries; look the `msgid` up in the dict; on
a miss append a fresh skeleton entry and register it; then classify. -/
def reconcileStep (st : RecState) (en : POEntry) : RecState :=
  if en.msgid = "" ∨ en.obsolete = true then st
  else
    match dGet st.koMap en.msgid with
    | some i => reconcileWith st en i st.ko st.koMap
    | none =>
        reconcileWith st en st.ko.length (st.ko ++ [newKoEntry en])
          (dSet st.koMap en.msgid st.ko.length)

/-- State at the top of the reconciliation loop (lines 74-78). -/
def initState (ko_po : List POEntry) : RecState :=
  { ko := ko_po, koMap := buildKoMap ko_po, targets := [] }

/-- Whole reconciliation pass: fold the loop body over the source catalog. -/
def reconcile (en_po ko_po : List POEntry) : RecState :=
  en_po.foldl reconcileStep (initState ko_po)

/-- Fixed target language (line 7). -/
def TARGET_LANG : String := "ko"

/-- Lines 47-52, instrumented: `translate_texts` returns `[]` for an empty
input without touching the backend, and otherwise forwards the whole list to
the backend with the fixed target language.  The second component records
the backend invocations made (language, texts), so that call-discipline
properties are statable. -/
def translate_texts (backend : String → List String → List String)
    (texts : List String) : List String × List (String × List String) :=
  if texts = [] then ([], [])
  else (backend TARGET_LANG texts, [(TARGET_LANG, texts)])

/-- Kind test for the batch partition (the `kind == "singular"` branch). -/
def isSingularTask (t : TransTask) : Bool :=
  decide (t.kind = TaskKind.singular)

/-- Kind test for the plural partition. -/
def isPluralTask (t : TransTask) : Bool :=
  decide (t.kind = TaskKind.plural)

/-- The four per-batch accumulators of lines 123-127. -/
structure BatchLists where
  singular_texts : List String := []
  singular_entries : List TransTask := []
  plural_texts : List String := []
  plural_entries : List TransTask := []
deriving DecidableEq, Repr, Inhabited

/-- Lines 129-135, body of the partition loop: a singular task contributes
its source `msgid`; a plural task contributes `msgid` then `msgid_plural`,
appended as an adjacent pair. -/
def batchSplitStep (bl : BatchLists) (t : TransTask) : BatchLists :=
  match t.kind with
  | TaskKind.singular =>
      { bl with singular_texts := bl.singular_texts ++ [t.en.msgid]
                singular_entries := bl.singular_entries ++ [t] }
  | TaskKind.plural =>
      { bl with plural_texts := bl.plural_texts ++ [t.en.msgid, t.en.msgid_plural]
                plural_entries := bl.plural_entries ++ [t] }

/-- Partition of one batch into singular and plural work. -/
def batchSplit (batch : List TransTask) : BatchLists :=
  batch.foldl batchSplitStep {}

/-- Assignment `ko_entry.msgstr = text` on the entry at index `i`. -/
def setMsgstr (ko : List POEntry) (i : Nat) (s : String) : List POEntry :=
  ko.set i { ko.getD i default with msgstr := s }

/-- Assignments `ko_entry.msgstr_plural[0] = s; ko_entry.msgstr_plural[1] = p`
on the entry at index `i`. -/
def setPluralStrs (ko : List POEntry) (i : Nat) (s p : String) : List POEntry :=
  ko.set i { ko.getD i default with
    msgstr_plural := pSet (pSet (ko.getD i default).msgstr_plural 0 s) 1 p }

/-- Lines 148-152: walk the singular tasks, consuming one result each;
`singular_results[idx]` raises `IndexError` when the results run out, which
the model reports as `none`. -/
def applySingulars : List POEntry → List TransTask → List String → Option (List POEntry)
  | ko, [], _ => some ko
  | _, _ :: _, [] => none
  | ko, t :: ts, r :: rs => applySingulars (setMsgstr ko t.koIdx r) ts rs

/-- Lines 155-161: walk the plural tasks, consuming two results each. -/
def applyPlurals : List POEntry → List TransTask → List String → Option (List POEntry)
  | ko, [], _ => some ko
  | ko, t :: ts, r0 :: r1 :: rs => applyPlurals (setPluralStrs ko t.koIdx r0 r1) ts rs
  | _, _ :: _, _ => none

/-- Lines 121-161, one batch: partition, translate the singular list and the
plural list (each guarded by non-emptiness, lines 139 and 144), then write
the results back.  Returns the updated catalog and the backend invocations
made. -/
def processBatch (backend : String → List String → List String)
    (ko : List POEntry) (batch : List TransTask) :
    Option (List POEntry × List (String × List String)) :=
  let bl := batchSplit batch
  let s := if bl.singular_texts ≠ [] then translate_texts backend bl.singular_texts
           else ([], [])
  let p := if bl.plural_texts ≠ [] then translate_texts backend bl.plural_texts
           else ([], [])
  match applySingulars ko bl.singular_entries s.1 with
  | none => none
  | some ko1 =>
      match applyPlurals ko1 bl.plural_entries p.1 with
      | none => none
      | some ko2 => some (ko2, s.2 ++ p.2)

/-- Batch size of the orchestrator (line 119). -/
def BATCH_SIZE : Nat := 50

/-- The slices `targets[i : i + BATCH_SIZE]` of line 121, indexed by fuel:
each slice consumes at least one task, so the length of the work list bounds
the number of slices, which makes the recursion structural (and hence
directly evaluable by the kernel). -/
def chunkListFuel : Nat → List TransTask → List (List TransTask)
  | 0, _ => []
  | _, [] => []
  | fuel + 1, t :: rest =>
      ((t :: rest).take BATCH_SIZE) :: chunkListFuel fuel ((t :: rest).drop BATCH_SIZE)

/-- The batch slices of the whole work list. -/
def chunkList (ts : List TransTask) : List (List TransTask) :=
  chunkListFuel ts.length ts

/-- Whole batch loop of line 120: process the batches in order, threading
the catalog and accumulating the backend invocations. -/
def runBatches (backend : String → List String → List String)
    (ko : List POEntry) :
    List (List TransTask) → Option (List POEntry × List (String × List String))
  | [] => some (ko, [])
  | b :: bs =>
      match processBatch backend ko b with
      | none => none
      | some (ko1, c1) =>
          match runBatches backend ko1 bs with
          | none => none
          | some (ko2, c2) => some (ko2, c1 ++ c2)

/-- Reconciliation followed by the batch loop: the in-memory target catalog
as it stands when `main` reaches the save. -/
def pipeline (backend : String → List String → List String)
    (en_po ko_po : List POEntry) : Option (List POEntry) :=
  let st := reconcile en_po ko_po
  match runBatches backend st.ko (chunkList st.targets) with
  | none => none
  | some (ko2, _) => some ko2

/-- Abstract file system visible to `main`: the English catalog file and the
Korean catalog file, each either absent or holding a parsed entry list. -/
structure FS where
  en : Option (List POEntry)
  ko : Option (List POEntry)
deriving DecidableEq, Repr

/-- Error message of line 58 (without the interpolated path). -/
def sourceMissingMsg : String := "영어 po 파일을 찾을 수 없음"

/-- Error reported when a backend response is shorter than its request and
the result write-back runs off the end (Python `IndexError`). -/
def shortResponseMsg : String := "IndexError: list index out of range"

/-- Lines 55-166, `main`: abort if the English file is missing; load the
Korean catalog or start from an empty one; reconcile; return early (without
saving) when there is nothing to translate; otherwise run the batches and
save the updated catalog.  The second component lists the backend
invocations of the run. -/
def mainRun (backend : String → List String → List String) (fs : FS) :
    Except String (FS × List (String × List String)) :=
  match fs.en with
  | none => Except.error sourceMissingMsg
  | some en_po =>
      let ko_po := fs.ko.getD []
      let st := reconcile en_po ko_po
      if st.targets.isEmpty then Except.ok (fs, [])
      else
        match runBatches backend st.ko (chunkList st.targets) with
        | none => Except.error shortResponseMsg
        | some (ko2, calls) => Except.ok ({ fs with ko := some ko2 }, calls)

/-- Number of entries of the catalog carrying a given `msgid`. -/
def countMid (ko : List POEntry) (mid : String) : Nat :=
  ko.countP (fun e => decide (e.msgid = mid))

/-- Index of the last entry carrying a given `msgid`, the invariant meaning
of the lookup dict. -/
def lastIdx : List POEntry → String → Option Nat
  | [], _ => none
  | e :: es, mid =>
      match lastIdx es mid with
      | some i => some (i + 1)
      | none => if e.msgid = mid then some 0 else none

/-- Metadata fields of an entry: everything except the translated texts. -/
def metaOf (e : POEntry) : String × String × List (String × String) × String × Bool :=
  (e.msgid, e.msgid_plural, e.occurrences, e.comment, e.obsolete)

/-- Index the reconciliation step resolves a source entry to: the dict hit,
or the append position. -/
def lookupIdx (st : RecState) (en : POEntry) : Nat :=
  match dGet st.koMap en.msgid with
  | some i => i
  | none => st.ko.length

/-- Target entry the reconciliation step resolves a source entry to: the
dict hit, or the fresh skeleton. -/
def lookupKoEntry (st : RecState) (en : POEntry) : POEntry :=
  match dGet st.koMap en.msgid with
  | some i => st.ko.getD i default
  | none => newKoEntry en

example : is_likely_english "OK %s 123" = true := by decide
example : is_likely_english "저장" = false := by decide
example : is_likely_english "±" = true := by decide
example : is_likely_english "   " = true := by decide

/-! Classifier lemmas -/

lemma pyIsWordChar_not_space (c : Char) (h : pyIsWordChar c = true) :
    pyIsSpace c = false := by
  simp only [pyIsWordChar, decide_eq_true_eq] at h
  simp only [pyIsSpace, decide_eq_false_iff_not]
  omega

lemma asciiClassChar_of_le (c : Char) (h : c.toNat ≤ 0x7F) :
    asciiClassChar c = true := by
  simp [asciiClassChar, h]

lemma asciiClassChar_false_of (c : Char) (h1 : 0x7F < c.toNat)
    (h2 : pyIsWordChar c = true) (h3 : pyIsDigitNd c = false) :
    asciiClassChar c = false := by
  have hs := pyIsWordChar_not_space c h2
  simp only [asciiClassChar, h2, h3, hs, Bool.not_true, Bool.or_false,
    decide_eq_false_iff_not]
  omega

lemma pyStripList_isEmpty_iff (cs : List Char) :
    (pyStripList cs).isEmpty = true ↔ ∀ c ∈ cs, pyIsSpace c = true := by
  unfold pyStripList
  rw [List.isEmpty_eq_true, List.reverse_eq_nil_iff, List.dropWhile_eq_nil_iff]
  constructor
  · intro h c hc
    rcases List.mem_append.1
        ((List.takeWhile_append_dropWhile (p := pyIsSpace) (l := cs)) ▸ hc) with h1 | h1
    · exact List.mem_takeWhile_imp h1
    · exact h c (List.mem_reverse.2 h1)
  · intro h c hc
    exact h c (List.dropWhile_sublist (p := pyIsSpace) |>.mem (List.mem_reverse.1 hc))

lemma ASCII_RE_match_eq (cs : List Char) :
    ASCII_RE_match cs = (!cs.isEmpty && cs.all asciiClassChar) := by
  rcases List.eq_nil_or_concat cs with rfl | ⟨l, a, rfl⟩
  · rfl
  · rw [List.concat_eq_append]
    have hnl : asciiClassChar (Char.ofNat 10) = true := by decide
    unfold ASCII_RE_match
    rw [List.getLast?_concat, List.dropLast_concat]
    by_cases ha : a = Char.ofNat 10
    · subst ha
      simp only [decide_eq_true_eq, List.all_append, List.all_cons, List.all_nil,
        hnl, Bool.and_true]
      cases h1 : l.all asciiClassChar <;> cases h2 : l.isEmpty <;> simp_all
    · have : decide ((l ++ [a]).getLast? = some (Char.ofNat 10)) = false := by
        rw [List.getLast?_concat]
        simpa using ha
      rw [List.getLast?_concat] at this
      simp only [this, Bool.false_and, Bool.and_false, Bool.or_false]

lemma is_likely_english_eq (text : String) :
    is_likely_english text =
      ((pyStripList text.data).isEmpty ||
        (!text.data.isEmpty && text.data.all asciiClassChar)) := by
  unfold is_likely_english
  rw [ASCII_RE_match_eq]
  cases h : (pyStripList text.data).isEmpty
  · cases h2 : (!text.data.isEmpty && text.data.all asciiClassChar) <;> simp [h, h2]
  · simp [h]

/-! Claims C1 and C9: the classifier -/

/-- C1 (amended): for every string composed solely of 7-bit ASCII characters
the classifier returns untranslated (true); and for every string containing
at least one non-ASCII character that the regex treats as a word character
and that is not a decimal digit (a letter, or a non-decimal numeral), it
returns translated (false).  The original claim, that any non-ASCII
character forces translated, fails: non-ASCII punctuation, symbols,
whitespace and decimal digits still match the `\W`, `\s` and `\d` parts of
the character class. -/
theorem C1_classifier_ascii (text : String) :
    ((∀ c ∈ text.data, c.toNat ≤ 0x7F) → is_likely_english text = true) ∧
    ((∃ c ∈ text.data, 0x7F < c.toNat ∧ pyIsWordChar c = true ∧ pyIsDigitNd c = false) →
      is_likely_english text = false) := by
  constructor
  · intro h
    rw [is_likely_english_eq]
    cases hstrip : (pyStripList text.data).isEmpty
    · have hne : text.data ≠ [] := by
        intro hnil
        rw [hnil] at hstrip
        simp [pyStripList] at hstrip
      have hall : text.data.all asciiClassChar = true := by
        rw [List.all_eq_true]
        intro c hc
        exact asciiClassChar_of_le c (h c hc)
      simp [hall, hne]
    · simp
  · rintro ⟨c, hc, hgt, hw, hd⟩
    rw [is_likely_english_eq]
    have hcs : pyIsSpace c = false := pyIsWordChar_not_space c hw
    have hstrip : (pyStripList text.data).isEmpty = false := by
      cases hstrip : (pyStripList text.data).isEmpty
      · rfl
      · have := (pyStripList_isEmpty_iff text.data).1 hstrip c hc
        rw [hcs] at this
        cases this
    have hclass : asciiClassChar c = false := asciiClassChar_false_of c hgt hw hd
    have hall : text.data.all asciiClassChar = false := by
      cases hall : text.data.all asciiClassChar
      · rfl
      · have := List.all_eq_true.1 hall c hc
        rw [hclass] at this
        cases this
    simp [hstrip, hall]

/-- C1 counterexample: the string `"±"` contains a non-ASCII character
(U+00B1, a symbol and hence a `\W` match), yet the classifier returns
untranslated (true), refuting the claim that any string with a non-ASCII
character is classified translated (false). -/
theorem C1_counterexample :
    ('±' ∈ ("±" : String).data ∧ 0x7F < '±'.toNat) ∧
      is_likely_english "±" = true := by
  decide

/-- C1 witness: a concrete all-ASCII string classified untranslated and a
concrete Korean string classified translated. -/
theorem C1_witness :
    is_likely_english "Save file" = true ∧ is_likely_english "저장" = false :=
  ⟨(C1_classifier_ascii "Save file").1 (by decide),
   (C1_classifier_ascii "저장").2 ⟨'저', by decide, by decide, by decide, by decide⟩⟩

/-- C9: for every string that is empty or consists only of whitespace
characters, the classifier returns untranslated (true): the stripped text is
empty, so the first branch fires. -/
theorem C9_whitespace_untranslated (text : String)
    (h : ∀ c ∈ text.data, pyIsSpace c = true) : is_likely_english text = true := by
  simp [is_likely_english, (pyStripList_isEmpty_iff text.data).2 h]

/-- C9 witness: the empty string and a concrete whitespace-only string. -/
theorem C9_witness : is_likely_english "" = true ∧ is_likely_english " \t\n" = true :=
  ⟨C9_whitespace_untranslated "" (by decide),
   C9_whitespace_untranslated " \t\n" (by decide)⟩

/-! Generic list index lemmas used by the reconciler and orchestrator proofs -/

lemma getD_append_left {α} (l1 l2 : List α) (i : Nat) (d : α) (h : i < l1.length) :
    (l1 ++ l2).getD i d = l1.getD i d := by
  simp [List.getD_eq_getElem?_getD, List.getElem?_append_left h]

lemma getD_append_length {α} (l : List α) (e d : α) :
    (l ++ [e]).getD l.length d = e := by
  simp [List.getD_eq_getElem?_getD, List.getElem?_concat_length]

lemma getD_set_self {α} (l : List α) (i : Nat) (a d : α) (h : i < l.length) :
    (l.set i a).getD i d = a := by
  simp [List.getD_eq_getElem?_getD, List.getElem?_set_self h]

lemma getD_set_ne {α} (l : List α) (i j : Nat) (a d : α) (h : i ≠ j) :
    (l.set i a).getD j d = l.getD j d := by
  simp [List.getD_eq_getElem?_getD, List.getElem?_set_ne h]

/-! Claim C6: missing source file -/

/-- C6: if the source catalog file does not exist, the run fails with the
fatal missing-source error.  The conclusion holds for every backend and
every prior state of the target file, so no backend call is made and the
target file is never read or written: the error is produced before any of
that state is consulted. -/
theorem C6_missing_source_fatal (backend : String → List String → List String)
    (fs : FS) (h : fs.en = none) :
    mainRun backend fs = Except.error sourceMissingMsg := by
  unfold mainRun
  rw [h]

/-- C6 witness: a concrete file system with no source file and a
pre-existing empty target file. -/
theorem C6_witness :
    mainRun (fun _ ts => ts) { en := none, ko := some [] } =
      Except.error sourceMissingMsg :=
  C6_missing_source_fatal (fun _ ts => ts) { en := none, ko := some [] } rfl

/-! Claim C7: singular classification text -/

lemma pyOrStr_chain (a b : String) :
    pyOrStr a (pyOrStr b "") = (if a ≠ "" then a else if b ≠ "" then b else "") := by
  unfold pyOrStr
  by_cases ha : a = "" <;> by_cases hb : b = "" <;> simp [ha, hb]

lemma taskListFor_singular (en koE : POEntry) (idx : Nat) (h3 : en.msgid_plural = "") :
    taskListFor en koE idx =
      (if is_likely_english (if koE.msgstr ≠ "" then koE.msgstr
          else if en.msgstr ≠ "" then en.msgstr else "")
       then [{ kind := TaskKind.singular, en := en, koIdx := idx }] else []) := by
  rw [← pyOrStr_chain]
  unfold taskListFor classifyTask
  rw [if_neg (by simp [h3])]
  cases hc : is_likely_english (pyOrStr koE.msgstr (pyOrStr en.msgstr "")) <;> simp [hc]

/-- C7: for a singular source entry that the reconciler processes (non-empty
`msgid`, not obsolete, no plural form), the text handed to the classifier is
the target entry's `msgstr` if non-empty, else the source entry's `msgstr`
if non-empty, else the empty string; and a singular task for that target
entry is appended to the work list if and only if the classifier marks that
text untranslated. -/
theorem C7_singular_text_choice (st : RecState) (en : POEntry)
    (h1 : en.msgid ≠ "") (h2 : en.obsolete = false) (h3 : en.msgid_plural = "") :
    (reconcileStep st en).targets = st.targets ++
      (if is_likely_english (if (lookupKoEntry st en).msgstr ≠ "" then (lookupKoEntry st en).msgstr
          else if en.msgstr ≠ "" then en.msgstr else "")
       then [{ kind := TaskKind.singular, en := en, koIdx := lookupIdx st en }] else []) := by
  have hguard : ¬(en.msgid = "" ∨ en.obsolete = true) := by
    simp [h1, h2]
  unfold reconcileStep
  rw [if_neg hguard]
  cases hd : dGet st.koMap en.msgid with
  | some i =>
      dsimp only [reconcileWith]
      rw [taskListFor_singular en _ i h3]
      simp only [lookupKoEntry, lookupIdx, hd]
  | none =>
      dsimp only [reconcileWith]
      rw [taskListFor_singular en _ _ h3]
      simp only [lookupKoEntry, lookupIdx, hd, getD_append_length]

/-- Sample source entry used by witnesses. -/
def enSave : POEntry :=
  { msgid := "Save", msgid_plural := "", msgstr := "", msgstr_plural := [],
    occurrences := [("src/ui.tsx", "10")], comment := "save button",
    obsolete := false }

/-- Sample plural-capable source entry used by witnesses. -/
def enFiles : POEntry :=
  { msgid := "1 file", msgid_plural := "{n} files", msgstr := "", msgstr_plural := [],
    occurrences := [], comment := "", obsolete := false }

/-- C7 witness: reconciling `enSave` against an empty target catalog
classifies the empty string and queues one singular task for the freshly
created entry at index 0. -/
theorem C7_witness :
    (reconcileStep (initState []) enSave).targets =
      [{ kind := TaskKind.singular, en := enSave, koIdx := 0 }] := by
  rw [C7_singular_text_choice (initState []) enSave (by decide) rfl rfl]
  decide

/-! Claim C8: backend call discipline -/

lemma processBatch_inv (backend : String → List String → List String)
    (ko : List POEntry) (batch : List TransTask)
    (res : List POEntry) (calls : List (String × List String))
    (h : processBatch backend ko batch = some (res, calls)) :
    ∃ ko1,
      applySingulars ko (batchSplit batch).singular_entries
        ((if (batchSplit batch).singular_texts ≠ [] then
            translate_texts backend (batchSplit batch).singular_texts
          else ([], [])).1) = some ko1 ∧
      applyPlurals ko1 (batchSplit batch).plural_entries
        ((if (batchSplit batch).plural_texts ≠ [] then
            translate_texts backend (batchSplit batch).plural_texts
          else ([], [])).1) = some res ∧
      calls = ((if (batchSplit batch).singular_texts ≠ [] then
            translate_texts backend (batchSplit batch).singular_texts
          else ([], [])).2) ++
        ((if (batchSplit batch).plural_texts ≠ [] then
            translate_texts backend (batchSplit batch).plural_texts
          else ([], [])).2) := by
  simp only [processBatch] at h
  split at h
  · exact absurd h (by simp)
  next ko1 hko1 =>
    split at h
    · exact absurd h (by simp)
    next ko2 hko2 =>
      injection h with h'
      injection h' with hres hcalls
      exact ⟨ko1, hko1, hres ▸ hko2, hcalls.symm⟩

/-- C8: the backend is never handed an empty list.  `translate_texts`
returns the empty result list and makes no backend invocation on an empty
input, whatever the backend; and a successful batch makes at most two
backend invocations (at most one for singulars, at most one for plurals),
each with a non-empty text list and the fixed target language. -/
theorem C8_no_empty_backend_call :
    (∀ backend : String → List String → List String,
      translate_texts backend [] = ([], [])) ∧
    (∀ (backend : String → List String → List String) ko batch res calls,
      processBatch backend ko batch = some (res, calls) →
      calls.length ≤ 2 ∧ ∀ c ∈ calls, c.1 = TARGET_LANG ∧ c.2 ≠ []) := by
  constructor
  · intro backend
    rfl
  · intro backend ko batch res calls h
    obtain ⟨ko1, -, -, hcalls⟩ := processBatch_inv backend ko batch res calls h
    subst hcalls
    by_cases hs : (batchSplit batch).singular_texts = [] <;>
      by_cases hp : (batchSplit batch).plural_texts = [] <;>
        simp_all [translate_texts]

/-- C8 witness: a concrete batch with one singular task makes exactly one
backend call, with the fixed language and a non-empty list. -/
theorem C8_witness :
    ([("ko", ["Save"])] : List (String × List String)).length ≤ 2 ∧
      ∀ c ∈ ([("ko", ["Save"])] : List (String × List String)),
        c.1 = TARGET_LANG ∧ c.2 ≠ [] :=
  C8_no_empty_backend_call.2 (fun _ ts => ts) [newKoEntry enSave]
    [{ kind := TaskKind.singular, en := enSave, koIdx := 0 }]
    [{ newKoEntry enSave with msgstr := "Save" }] [("ko", ["Save"])] (by decide)

/-! Reconciler invariants: the lookup dict tracks the last index of each
`msgid`, the catalog only grows by appends of fresh msgids, and the work
list only grows at the tail. -/

lemma dGet_dSet (d : List (String × Nat)) (k : String) (v : Nat) (k' : String) :
    dGet (dSet d k v) k' = if k = k' then some v else dGet d k' := by
  induction d with
  | nil => by_cases h : k = k' <;> simp [dSet, dGet, h]
  | cons p d ih =>
      by_cases hp : p.1 = k
      · by_cases h : k = k' <;> simp [dSet, dGet, hp, h]
      · by_cases h : k = k'
        · simp only [dSet, if_neg hp, dGet, ih, if_pos h]
          rw [if_neg (h ▸ hp)]
        · simp [dSet, dGet, hp, h, ih]

lemma lastIdx_eq_none_iff (l : List POEntry) (mid : String) :
    lastIdx l mid = none ↔ ∀ x ∈ l, x.msgid ≠ mid := by
  induction l with
  | nil => simp [lastIdx]
  | cons e l ih =>
      unfold lastIdx
      cases h : lastIdx l mid with
      | some i =>
          simp only [List.mem_cons]
          constructor
          · intro hc; cases hc
          · intro hall
            have hnone : lastIdx l mid = none :=
              ih.2 (fun x hx => hall x (Or.inr hx))
            rw [h] at hnone; cases hnone
      | none =>
          have hall := ih.1 h
          by_cases he : e.msgid = mid
          · simp only [if_pos he, List.mem_cons]
            constructor
            · intro hc; cases hc
            · intro h2; exact absurd he (h2 e (Or.inl rfl))
          · simp only [if_neg he, List.mem_cons, true_iff]
            intro x hx
            rcases hx with rfl | hx
            · exact he
            · exact hall x hx

lemma lastIdx_lt_length (l : List POEntry) (mid : String) (i : Nat)
    (h : lastIdx l mid = some i) :
    i < l.length ∧ (l.getD i default).msgid = mid := by
  induction l generalizing i with
  | nil => cases h
  | cons e l ih =>
      unfold lastIdx at h
      cases h2 : lastIdx l mid with
      | some j =>
          rw [h2] at h
          injection h with h
          subst h
          obtain ⟨hlt, hmid⟩ := ih j h2
          refine ⟨by simpa using Nat.succ_lt_succ hlt, by simpa using hmid⟩
      | none =>
          rw [h2] at h
          by_cases he : e.msgid = mid
          · rw [if_pos he] at h
            injection h with h
            subst h
            exact ⟨by simp, by simpa using he⟩
          · rw [if_neg he] at h
            cases h

lemma lastIdx_concat (l : List POEntry) (e : POEntry) (mid : String) :
    lastIdx (l ++ [e]) mid =
      if e.msgid = mid then some l.length else lastIdx l mid := by
  induction l with
  | nil => by_cases he : e.msgid = mid <;> simp [lastIdx, he]
  | cons x l ih =>
      by_cases he : e.msgid = mid
      · simp only [List.cons_append, lastIdx, List.append_eq, ih, if_pos he,
          List.length_cons]
      · simp only [List.cons_append, lastIdx, List.append_eq, ih, if_neg he]

lemma lastIdx_append_not_mem (a b : List POEntry) (mid : String)
    (h : ∀ x ∈ b, x.msgid ≠ mid) : lastIdx (a ++ b) mid = lastIdx a mid := by
  induction a with
  | nil =>
      simp only [List.nil_append, lastIdx]
      exact (lastIdx_eq_none_iff b mid).2 h
  | cons x a ih =>
      simp only [List.cons_append, lastIdx, List.append_eq, ih]

lemma buildKoMapAux_dGet (l : List POEntry) :
    ∀ (d : List (String × Nat)) (i : Nat) (mid : String),
      dGet (buildKoMapAux d i l) mid =
        match lastIdx l mid with
        | some j => some (i + j)
        | none => dGet d mid := by
  induction l with
  | nil => intro d i mid; simp [buildKoMapAux, lastIdx]
  | cons e l ih =>
      intro d i mid
      simp only [buildKoMapAux]
      rw [ih]
      cases h : lastIdx l mid with
      | some j =>
          simp only [lastIdx, h, Option.some.injEq]
          omega
      | none =>
          rw [dGet_dSet]
          by_cases he : e.msgid = mid
          · simp [lastIdx, h, he]
          · simp [lastIdx, h, he]

lemma buildKoMap_dGet (ko : List POEntry) (mid : String) :
    dGet (buildKoMap ko) mid = lastIdx ko mid := by
  unfold buildKoMap
  rw [buildKoMapAux_dGet]
  cases h : lastIdx ko mid <;> simp [dGet]

/-- Coherence invariant of the reconciliation state: the lookup dict sends
each `msgid` to the index of the last catalog entry carrying it (exactly
the meaning of the dict comprehension, kept true by the append-and-register
branch). -/
def Coherent (st : RecState) : Prop :=
  ∀ mid, dGet st.koMap mid = lastIdx st.ko mid

lemma initState_coherent (ko : List POEntry) : Coherent (initState ko) :=
  fun mid => buildKoMap_dGet ko mid

lemma reconcileStep_coherent (st : RecState) (en : POEntry) (hC : Coherent st) :
    Coherent (reconcileStep st en) := by
  unfold reconcileStep
  by_cases hg : en.msgid = "" ∨ en.obsolete = true
  · rw [if_pos hg]; exact hC
  · rw [if_neg hg]
    cases hd : dGet st.koMap en.msgid with
    | some i => exact hC
    | none =>
        intro mid
        show dGet (dSet st.koMap en.msgid st.ko.length) mid =
          lastIdx (st.ko ++ [newKoEntry en]) mid
        rw [dGet_dSet, lastIdx_concat]
        by_cases he : en.msgid = mid
        · simp [newKoEntry, he]
        · simp [newKoEntry, he, hC mid]

lemma reconcileStep_ko (st : RecState) (en : POEntry) :
    (reconcileStep st en).ko = st.ko ∨
    ((reconcileStep st en).ko = st.ko ++ [newKoEntry en] ∧
      dGet st.koMap en.msgid = none ∧ ¬(en.msgid = "" ∨ en.obsolete = true)) := by
  unfold reconcileStep
  by_cases hg : en.msgid = "" ∨ en.obsolete = true
  · rw [if_pos hg]; left; rfl
  · rw [if_neg hg]
    cases hd : dGet st.koMap en.msgid with
    | some i => left; rfl
    | none => right; exact ⟨rfl, rfl, hg⟩

lemma reconcile_fold_inv (l : List POEntry) :
    ∀ st : RecState, Coherent st →
      Coherent (l.foldl reconcileStep st) ∧
      ∃ ext, (l.foldl reconcileStep st).ko = st.ko ++ ext ∧
        ∀ x ∈ ext, lastIdx st.ko x.msgid = none := by
  induction l with
  | nil => intro st hC; exact ⟨hC, [], by simp, by simp⟩
  | cons e l ih =>
      intro st hC
      have hC1 := reconcileStep_coherent st e hC
      obtain ⟨hCF, ext1, hext1, hnone1⟩ := ih (reconcileStep st e) hC1
      rw [List.foldl_cons]
      rcases reconcileStep_ko st e with h | ⟨h, hd, _⟩
      · refine ⟨hCF, ext1, by rw [hext1, h], ?_⟩
        intro x hx
        have := hnone1 x hx
        rwa [h] at this
      · refine ⟨hCF, newKoEntry e :: ext1, ?_, ?_⟩
        · rw [hext1, h, List.append_assoc]
          rfl
        · intro x hx
          rcases List.mem_cons.1 hx with rfl | hx
          · have : lastIdx st.ko e.msgid = none := by
              rw [← hC e.msgid]; exact hd
            simpa [newKoEntry] using this
          · have h1 := hnone1 x hx
            rw [h, lastIdx_concat] at h1
            by_cases he : (newKoEntry e).msgid = x.msgid
            · rw [if_pos he] at h1; cases h1
            · rwa [if_neg he] at h1

lemma reconcileStep_targets_ext (st : RecState) (en : POEntry) :
    ∃ d, (reconcileStep st en).targets = st.targets ++ d := by
  unfold reconcileStep
  by_cases hg : en.msgid = "" ∨ en.obsolete = true
  · rw [if_pos hg]; exact ⟨[], by simp⟩
  · rw [if_neg hg]
    cases hd : dGet st.koMap en.msgid with
    | some i => exact ⟨_, rfl⟩
    | none => exact ⟨_, rfl⟩

lemma reconcile_fold_targets_ext (l : List POEntry) :
    ∀ st : RecState, ∃ d, (l.foldl reconcileStep st).targets = st.targets ++ d := by
  induction l with
  | nil => intro st; exact ⟨[], by simp⟩
  | cons e l ih =>
      intro st
      obtain ⟨d1, h1⟩ := reconcileStep_targets_ext st e
      obtain ⟨d2, h2⟩ := ih (reconcileStep st e)
      exact ⟨d1 ++ d2, by rw [List.foldl_cons, h2, h1, List.append_assoc]⟩

/-! Replay: running the reconciliation step again, from the final catalog
and a dict coherent with it, changes nothing and reproduces the same task
contribution. -/

lemma reconcileStep_replay (st : RecState) (e : POEntry) (hC : Coherent st)
    (ext : List POEntry)
    (hext : ∀ x ∈ ext, lastIdx (reconcileStep st e).ko x.msgid = none)
    (M : List (String × Nat))
    (hM : ∀ mid, dGet M mid = lastIdx ((reconcileStep st e).ko ++ ext) mid)
    (tg : List TransTask) :
    reconcileStep { ko := (reconcileStep st e).ko ++ ext, koMap := M, targets := tg } e =
      { ko := (reconcileStep st e).ko ++ ext, koMap := M,
        targets := tg ++ ((reconcileStep st e).targets.drop st.targets.length) } := by
  by_cases hg : e.msgid = "" ∨ e.obsolete = true
  · have hstep : reconcileStep st e = st := by
      unfold reconcileStep; rw [if_pos hg]
    rw [hstep]
    unfold reconcileStep
    rw [if_pos hg]
    simp [List.drop_length]
  · cases hd : dGet st.koMap e.msgid with
    | some i =>
        have hstep : reconcileStep st e = reconcileWith st e i st.ko st.koMap := by
          unfold reconcileStep; rw [if_neg hg, hd]
        have hko : (reconcileStep st e).ko = st.ko := by rw [hstep]; rfl
        have hidx := lastIdx_lt_length st.ko e.msgid i (by rw [← hC e.msgid]; exact hd)
        have hMe : dGet M e.msgid = some i := by
          rw [hM e.msgid, hko, lastIdx_append_not_mem]
          · rw [← hC e.msgid]; exact hd
          · intro x hx hxe
            have h1 := hext x hx
            rw [hko, hxe] at h1
            have h2 : lastIdx st.ko e.msgid = some i := by
              rw [← hC e.msgid]; exact hd
            rw [h2] at h1
            cases h1
        have hdrop : (reconcileStep st e).targets.drop st.targets.length =
            taskListFor e (st.ko.getD i default) i := by
          rw [hstep]
          show (st.targets ++ taskListFor e (st.ko.getD i default) i).drop
            st.targets.length = _
          rw [List.drop_left]
        rw [hko, hdrop]
        unfold reconcileStep
        rw [if_neg hg]
        dsimp only
        rw [hMe]
        dsimp only [reconcileWith]
        rw [getD_append_left st.ko ext i default hidx.1]
    | none =>
        have hstep : reconcileStep st e = reconcileWith st e st.ko.length
            (st.ko ++ [newKoEntry e]) (dSet st.koMap e.msgid st.ko.length) := by
          unfold reconcileStep; rw [if_neg hg, hd]
        have hko : (reconcileStep st e).ko = st.ko ++ [newKoEntry e] := by
          rw [hstep]; rfl
        have hextne : ∀ x ∈ ext, x.msgid ≠ e.msgid := by
          intro x hx hxe
          have h1 := hext x hx
          rw [hko, hxe, lastIdx_concat] at h1
          rw [if_pos (show (newKoEntry e).msgid = e.msgid from rfl)] at h1
          cases h1
        have hMe : dGet M e.msgid = some st.ko.length := by
          rw [hM e.msgid, hko, lastIdx_append_not_mem _ _ _ hextne, lastIdx_concat,
            if_pos (show (newKoEntry e).msgid = e.msgid from rfl)]
        have hdrop : (reconcileStep st e).targets.drop st.targets.length =
            taskListFor e (newKoEntry e) st.ko.length := by
          rw [hstep]
          show (st.targets ++ taskListFor e
            ((st.ko ++ [newKoEntry e]).getD st.ko.length default) st.ko.length).drop
            st.targets.length = _
          rw [List.drop_left, getD_append_length]
        rw [hko, hdrop]
        unfold reconcileStep
        rw [if_neg hg]
        dsimp only
        rw [hMe]
        dsimp only [reconcileWith]
        rw [getD_append_left (st.ko ++ [newKoEntry e]) ext st.ko.length default
          (by simp), getD_append_length]

lemma reconcile_fold_replay (l : List POEntry) :
    ∀ st : RecState, Coherent st →
    ∀ M : List (String × Nat),
      (∀ mid, dGet M mid = lastIdx (l.foldl reconcileStep st).ko mid) →
    ∀ tg : List TransTask,
      l.foldl reconcileStep
          { ko := (l.foldl reconcileStep st).ko, koMap := M, targets := tg } =
        { ko := (l.foldl reconcileStep st).ko, koMap := M,
          targets := tg ++ ((l.foldl reconcileStep st).targets.drop st.targets.length) } := by
  induction l with
  | nil =>
      intro st hC M hM tg
      simp [List.drop_length]
  | cons e l ih =>
      intro st hC M hM tg
      have hC1 := reconcileStep_coherent st e hC
      obtain ⟨hCF, ext, hext, hnone⟩ := reconcile_fold_inv l (reconcileStep st e) hC1
      obtain ⟨d1, hd1⟩ := reconcileStep_targets_ext st e
      obtain ⟨d2, hd2⟩ := reconcile_fold_targets_ext l (reconcileStep st e)
      simp only [List.foldl_cons] at hM ⊢
      have hstep := reconcileStep_replay st e hC ext hnone M
        (fun mid => by rw [hM mid, hext]) tg
      rw [← hext] at hstep
      rw [hstep]
      rw [ih (reconcileStep st e) hC1 M hM
        (tg ++ (reconcileStep st e).targets.drop st.targets.length)]
      have e1 : (reconcileStep st e).targets.drop st.targets.length = d1 := by
        rw [hd1, List.drop_left]
      have e2 : (l.foldl reconcileStep (reconcileStep st e)).targets.drop
          (reconcileStep st e).targets.length = d2 := by
        rw [hd2, List.drop_left]
      have e3 : (l.foldl reconcileStep (reconcileStep st e)).targets.drop
          st.targets.length = d1 ++ d2 := by
        rw [hd2, hd1, List.append_assoc, List.drop_left]
      rw [e1, e2, e3, List.append_assoc]

/-- C5: reconciliation is idempotent.  Running the reconciliation pass a
second time on the catalog produced by the first pass (with no translation
in between) appends no further target entries and produces the identical
work list, same tasks in the same order. -/
theorem C5_reconcile_idempotent (en_po ko_po : List POEntry) :
    (reconcile en_po (reconcile en_po ko_po).ko).ko = (reconcile en_po ko_po).ko ∧
    (reconcile en_po (reconcile en_po ko_po).ko).targets =
      (reconcile en_po ko_po).targets := by
  have h := reconcile_fold_replay en_po (initState ko_po) (initState_coherent ko_po)
      (buildKoMap (reconcile en_po ko_po).ko)
      (fun mid => buildKoMap_dGet _ mid) []
  have hmain : reconcile en_po (reconcile en_po ko_po).ko =
      { ko := (reconcile en_po ko_po).ko,
        koMap := buildKoMap (reconcile en_po ko_po).ko,
        targets := [] ++ ((reconcile en_po ko_po).targets.drop 0) } := h
  rw [hmain]
  constructor <;> simp

/-! Entry counts per `msgid` through reconciliation -/

lemma countMid_append (a b : List POEntry) (mid : String) :
    countMid (a ++ b) mid = countMid a mid + countMid b mid := by
  simp [countMid, List.countP_append]

lemma lastIdx_none_iff_countMid (l : List POEntry) (mid : String) :
    lastIdx l mid = none ↔ countMid l mid = 0 := by
  rw [lastIdx_eq_none_iff]
  simp [countMid, List.countP_eq_zero]

lemma countMid_single_new (en : POEntry) (mid : String) :
    countMid [newKoEntry en] mid = if en.msgid = mid then 1 else 0 := by
  by_cases he : en.msgid = mid <;>
    simp [countMid, List.countP_cons, List.countP_nil, newKoEntry, he]

lemma reconcileStep_countMid (st : RecState) (en : POEntry) (hC : Coherent st)
    (mid : String) :
    countMid (reconcileStep st en).ko mid = countMid st.ko mid ∨
    (countMid st.ko mid = 0 ∧ countMid (reconcileStep st en).ko mid = 1) := by
  rcases reconcileStep_ko st en with h | ⟨h, hd, _⟩
  · left; rw [h]
  · by_cases he : en.msgid = mid
    · right
      have h0 : countMid st.ko mid = 0 := by
        rw [← lastIdx_none_iff_countMid, ← he, ← hC en.msgid]
        exact hd
      refine ⟨h0, ?_⟩
      rw [h, countMid_append, h0, countMid_single_new, if_pos he]
    · left
      rw [h, countMid_append, countMid_single_new, if_neg he, Nat.add_zero]

lemma reconcile_fold_countMid_le (l : List POEntry) (mid : String) :
    ∀ st : RecState, Coherent st → countMid st.ko mid ≤ 1 →
      countMid (l.foldl reconcileStep st).ko mid ≤ 1 := by
  induction l with
  | nil => intro st _ h1; exact h1
  | cons e l ih =>
      intro st hC h1
      rw [List.foldl_cons]
      apply ih (reconcileStep st e) (reconcileStep_coherent st e hC)
      rcases reconcileStep_countMid st e hC mid with h | ⟨_, h2⟩
      · rw [h]; exact h1
      · rw [h2]

lemma reconcile_fold_countMid_ge (l : List POEntry) (mid : String) :
    ∀ st : RecState, countMid st.ko mid ≤ countMid (l.foldl reconcileStep st).ko mid := by
  induction l with
  | nil => intro st; exact Nat.le_refl _
  | cons e l ih =>
      intro st
      rw [List.foldl_cons]
      refine Nat.le_trans ?_ (ih (reconcileStep st e))
      rcases reconcileStep_ko st e with h | ⟨h, _, _⟩
      · rw [h]
      · rw [h, countMid_append]
        exact Nat.le_add_right _ _

lemma reconcileStep_countMid_pos (st : RecState) (en : POEntry) (hC : Coherent st)
    (h1 : en.msgid ≠ "") (h2 : en.obsolete = false) :
    1 ≤ countMid (reconcileStep st en).ko en.msgid := by
  unfold reconcileStep
  rw [if_neg (by simp [h1, h2])]
  cases hd : dGet st.koMap en.msgid with
  | some i =>
      have hlast : lastIdx st.ko en.msgid = some i := by
        rw [← hC en.msgid]; exact hd
      obtain ⟨hlt, hmid⟩ := lastIdx_lt_length st.ko en.msgid i hlast
      show 1 ≤ countMid st.ko en.msgid
      have hmem : st.ko.getD i default ∈ st.ko := by
        rw [List.getD_eq_getElem?_getD, List.getElem?_eq_getElem hlt, Option.getD_some]
        exact List.getElem_mem hlt
      have hpos : 0 < countMid st.ko en.msgid := by
        unfold countMid
        rw [List.countP_pos_iff]
        exact ⟨st.ko.getD i default, hmem, by simp only [decide_eq_true_eq]; exact hmid⟩
      exact hpos
  | none =>
      show 1 ≤ countMid (st.ko ++ [newKoEntry en]) en.msgid
      rw [countMid_append, countMid_single_new, if_pos rfl]
      exact Nat.le_add_left _ _

/-- C3: after reconciliation, every source entry with a non-empty `msgid`
that is not obsolete has exactly one entry carrying its `msgid` in the
target catalog, whether or not a task was queued for it.  The hypothesis
that the initial target catalog carries each `msgid` at most once is the
data-model well-formedness of a catalog (entries are keyed by `msgid`);
reconciliation preserves it and fills every gap exactly once. -/
theorem C3_exactly_one_target (en_po ko_po : List POEntry)
    (hnd : ∀ mid, countMid ko_po mid ≤ 1)
    (e : POEntry) (he : e ∈ en_po) (hid : e.msgid ≠ "") (hobs : e.obsolete = false) :
    countMid (reconcile en_po ko_po).ko e.msgid = 1 := by
  obtain ⟨pre, post, rfl⟩ := List.append_of_mem he
  have hC0 := initState_coherent ko_po
  have hCpre := (reconcile_fold_inv pre (initState ko_po) hC0).1
  have hfold : reconcile (pre ++ e :: post) ko_po =
      post.foldl reconcileStep
        (reconcileStep (pre.foldl reconcileStep (initState ko_po)) e) := by
    unfold reconcile
    rw [List.foldl_append, List.foldl_cons]
  have hge := reconcileStep_countMid_pos
    (pre.foldl reconcileStep (initState ko_po)) e hCpre hid hobs
  have hmono := reconcile_fold_countMid_ge post e.msgid
    (reconcileStep (pre.foldl reconcileStep (initState ko_po)) e)
  have hle : countMid (reconcile (pre ++ e :: post) ko_po).ko e.msgid ≤ 1 :=
    reconcile_fold_countMid_le (pre ++ e :: post) e.msgid (initState ko_po) hC0
      (hnd e.msgid)
  rw [hfold] at hle ⊢
  omega

/-- C3 witness: one source entry, empty initial target catalog; after
reconciliation the target catalog carries `"Save"` exactly once. -/
theorem C3_witness : countMid (reconcile [enSave] []).ko "Save" = 1 :=
  C3_exactly_one_target [enSave] [] (fun mid => by simp [countMid])
    enSave (by simp) (by decide) rfl

/-! Batch partition and result write-back lemmas -/

lemma batchSplit_foldl (batch : List TransTask) :
    ∀ bl : BatchLists,
      batch.foldl batchSplitStep bl =
        { singular_texts := bl.singular_texts ++
            (batch.filter isSingularTask).map (fun t => t.en.msgid),
          singular_entries := bl.singular_entries ++ batch.filter isSingularTask,
          plural_texts := bl.plural_texts ++
            (batch.filter isPluralTask).flatMap
              (fun t => [t.en.msgid, t.en.msgid_plural]),
          plural_entries := bl.plural_entries ++ batch.filter isPluralTask } := by
  induction batch with
  | nil => intro bl; simp
  | cons t ts ih =>
      intro bl
      rw [List.foldl_cons, ih]
      cases hk : t.kind
      · simp [batchSplitStep, isSingularTask, isPluralTask, hk, List.filter_cons,
          List.flatMap_cons]
      · simp [batchSplitStep, isSingularTask, isPluralTask, hk, List.filter_cons,
          List.flatMap_cons]

lemma batchSplit_eq (batch : List TransTask) :
    batchSplit batch =
      { singular_texts := (batch.filter isSingularTask).map (fun t => t.en.msgid),
        singular_entries := batch.filter isSingularTask,
        plural_texts := (batch.filter isPluralTask).flatMap
          (fun t => [t.en.msgid, t.en.msgid_plural]),
        plural_entries := batch.filter isPluralTask } := by
  have h := batchSplit_foldl batch {}
  simpa [batchSplit] using h

lemma pGet_pSet (d : List (Nat × String)) (k : Nat) (v : String) (k' : Nat)
    (dflt : String) :
    pGet (pSet d k v) k' dflt = if k = k' then v else pGet d k' dflt := by
  induction d with
  | nil => by_cases h : k = k' <;> simp [pSet, pGet, h]
  | cons p d ih =>
      by_cases hp : p.1 = k
      · by_cases h : k = k' <;> simp [pSet, pGet, hp, h]
      · by_cases h : k = k'
        · simp only [pSet, if_neg hp, pGet, ih, if_pos h]
          rw [if_neg (h ▸ hp)]
        · simp [pSet, pGet, hp, h, ih]

lemma setMsgstr_length (ko : List POEntry) (i : Nat) (s : String) :
    (setMsgstr ko i s).length = ko.length := by
  simp [setMsgstr]

lemma setPluralStrs_length (ko : List POEntry) (i : Nat) (s p : String) :
    (setPluralStrs ko i s p).length = ko.length := by
  simp [setPluralStrs]

lemma setMsgstr_getD (ko : List POEntry) (i : Nat) (s : String) (j : Nat) :
    (setMsgstr ko i s).getD j default =
      if i = j ∧ i < ko.length then { ko.getD i default with msgstr := s }
      else ko.getD j default := by
  unfold setMsgstr
  by_cases hij : i = j
  · subst hij
    by_cases hlt : i < ko.length
    · rw [getD_set_self _ _ _ _ hlt, if_pos ⟨rfl, hlt⟩]
    · rw [List.set_eq_of_length_le (Nat.le_of_not_lt hlt), if_neg (by tauto)]
  · rw [getD_set_ne _ _ _ _ _ hij, if_neg (by tauto)]

lemma setPluralStrs_getD (ko : List POEntry) (i : Nat) (s p : String) (j : Nat) :
    (setPluralStrs ko i s p).getD j default =
      if i = j ∧ i < ko.length then
        { ko.getD i default with
          msgstr_plural := pSet (pSet (ko.getD i default).msgstr_plural 0 s) 1 p }
      else ko.getD j default := by
  unfold setPluralStrs
  by_cases hij : i = j
  · subst hij
    by_cases hlt : i < ko.length
    · rw [getD_set_self _ _ _ _ hlt, if_pos ⟨rfl, hlt⟩]
    · rw [List.set_eq_of_length_le (Nat.le_of_not_lt hlt), if_neg (by tauto)]
  · rw [getD_set_ne _ _ _ _ _ hij, if_neg (by tauto)]

lemma applySingulars_inv (ts : List TransTask) :
    ∀ (ko : List POEntry) (rs : List String) (res : List POEntry),
      applySingulars ko ts rs = some res →
      res.length = ko.length ∧
      (∀ j, (∀ t ∈ ts, t.koIdx ≠ j) → res.getD j default = ko.getD j default) ∧
      (∀ j, metaOf (res.getD j default) = metaOf (ko.getD j default) ∧
        (res.getD j default).msgstr_plural = (ko.getD j default).msgstr_plural) := by
  induction ts with
  | nil =>
      intro ko rs res h
      cases rs <;>
        · injection h with h
          subst h
          exact ⟨rfl, fun j _ => rfl, fun j => ⟨rfl, rfl⟩⟩
  | cons t ts ih =>
      intro ko rs res h
      cases rs with
      | nil => cases h
      | cons r rs =>
          obtain ⟨hlen, hframe, hfields⟩ := ih (setMsgstr ko t.koIdx r) rs res h
          refine ⟨hlen.trans (setMsgstr_length ko t.koIdx r), ?_, ?_⟩
          · intro j hj
            have h1 := hframe j (fun u hu => hj u (List.mem_cons_of_mem _ hu))
            have h2 : t.koIdx ≠ j := hj t (List.mem_cons_self _ _)
            rw [h1, setMsgstr_getD, if_neg (by tauto)]
          · intro j
            obtain ⟨hm, hp⟩ := hfields j
            constructor
            · rw [hm, setMsgstr_getD]
              by_cases hc : t.koIdx = j ∧ t.koIdx < ko.length
              · rw [if_pos hc, ← hc.1]; rfl
              · rw [if_neg hc]
            · rw [hp, setMsgstr_getD]
              by_cases hc : t.koIdx = j ∧ t.koIdx < ko.length
              · rw [if_pos hc, ← hc.1]
              · rw [if_neg hc]

lemma applyPlurals_inv (ts : List TransTask) :
    ∀ (ko : List POEntry) (rs : List String) (res : List POEntry),
      applyPlurals ko ts rs = some res →
      res.length = ko.length ∧
      (∀ j, (∀ t ∈ ts, t.koIdx ≠ j) → res.getD j default = ko.getD j default) ∧
      (∀ j, metaOf (res.getD j default) = metaOf (ko.getD j default) ∧
        (res.getD j default).msgstr = (ko.getD j default).msgstr ∧
        ∀ k, k ≠ 0 → k ≠ 1 →
          pGet (res.getD j default).msgstr_plural k "" =
            pGet (ko.getD j default).msgstr_plural k "") := by
  induction ts with
  | nil =>
      intro ko rs res h
      cases rs <;>
        · injection h with h
          subst h
          exact ⟨rfl, fun j _ => rfl, fun j => ⟨rfl, rfl, fun k _ _ => rfl⟩⟩
  | cons t ts ih =>
      intro ko rs res h
      cases rs with
      | nil => cases h
      | cons r0 rs1 =>
          cases rs1 with
          | nil => cases h
          | cons r1 rs =>
              obtain ⟨hlen, hframe, hfields⟩ := ih (setPluralStrs ko t.koIdx r0 r1) rs res h
              refine ⟨hlen.trans (setPluralStrs_length ko t.koIdx r0 r1), ?_, ?_⟩
              · intro j hj
                have h1 := hframe j (fun u hu => hj u (List.mem_cons_of_mem _ hu))
                have h2 : t.koIdx ≠ j := hj t (List.mem_cons_self _ _)
                rw [h1, setPluralStrs_getD, if_neg (by tauto)]
              · intro j
                obtain ⟨hm, hs, hpg⟩ := hfields j
                refine ⟨?_, ?_, ?_⟩
                · rw [hm, setPluralStrs_getD]
                  by_cases hc : t.koIdx = j ∧ t.koIdx < ko.length
                  · rw [if_pos hc, ← hc.1]; rfl
                  · rw [if_neg hc]
                · rw [hs, setPluralStrs_getD]
                  by_cases hc : t.koIdx = j ∧ t.koIdx < ko.length
                  · rw [if_pos hc, ← hc.1]
                  · rw [if_neg hc]
                · intro k hk0 hk1
                  rw [hpg k hk0 hk1, setPluralStrs_getD]
                  by_cases hc : t.koIdx = j ∧ t.koIdx < ko.length
                  · rw [if_pos hc, ← hc.1]
                    show pGet (pSet (pSet _ 0 r0) 1 r1) k "" = _
                    rw [pGet_pSet, if_neg (fun h1 => hk1 h1.symm),
                      pGet_pSet, if_neg (fun h0 => hk0 h0.symm)]
                  · rw [if_neg hc]

lemma flatMap_pair_length (l : List TransTask) (f g : TransTask → String) :
    (l.flatMap (fun t => [f t, g t])).length = 2 * l.length := by
  induction l with
  | nil => simp
  | cons t l ih =>
      simp only [List.flatMap_cons, List.length_append, List.length_cons, ih]
      simp
      omega

lemma flatMap_pair_getD (f g : TransTask → String) (l : List TransTask) :
    ∀ k, k < l.length →
      (l.flatMap (fun t => [f t, g t])).getD (2 * k) "" = f (l.getD k default) ∧
      (l.flatMap (fun t => [f t, g t])).getD (2 * k + 1) "" = g (l.getD k default) := by
  induction l with
  | nil => intro k hk; cases hk
  | cons t l ih =>
      intro k hk
      cases k with
      | zero => simp [List.flatMap_cons]
      | succ k =>
          have h1 : 2 * (k + 1) = 2 * k + 1 + 1 := by omega
          rw [h1]
          simp only [List.flatMap_cons, List.cons_append, List.nil_append,
            List.getD_cons_succ]
          exact ih k (by simpa using Nat.lt_of_succ_lt_succ hk)

lemma applyPlurals_values (ts : List TransTask) :
    ∀ (ko : List POEntry) (rs : List String) (res : List POEntry),
      applyPlurals ko ts rs = some res →
      (ts.map (fun t => t.koIdx)).Nodup →
      (∀ t ∈ ts, t.koIdx < ko.length) →
      ∀ k, k < ts.length →
        pGet ((res.getD (ts.getD k default).koIdx default).msgstr_plural) 0 "" =
          rs.getD (2 * k) "" ∧
        pGet ((res.getD (ts.getD k default).koIdx default).msgstr_plural) 1 "" =
          rs.getD (2 * k + 1) "" := by
  induction ts with
  | nil => intro ko rs res h hnd hval k hk; cases hk
  | cons t ts ih =>
      intro ko rs res h hnd hval k hk
      cases rs with
      | nil => cases h
      | cons r0 rs1 =>
          cases rs1 with
          | nil => cases h
          | cons r1 rs =>
              simp only [List.map_cons, List.nodup_cons] at hnd
              cases k with
              | zero =>
                  have hlt : t.koIdx < ko.length := hval t (List.mem_cons_self _ _)
                  have hframe := (applyPlurals_inv ts _ rs res h).2.1 t.koIdx
                    (fun u hu hc => hnd.1 (hc ▸ List.mem_map_of_mem _ hu))
                  simp only [List.getD_cons_zero, Nat.mul_zero, Nat.zero_add]
                  rw [hframe, setPluralStrs_getD, if_pos ⟨rfl, hlt⟩]
                  constructor
                  · show pGet (pSet (pSet _ 0 r0) 1 r1) 0 "" = _
                    rw [pGet_pSet, if_neg (by omega), pGet_pSet, if_pos rfl]
                  · show pGet (pSet (pSet _ 0 r0) 1 r1) 1 "" = _
                    rw [pGet_pSet, if_pos rfl]
                    rfl
              | succ k =>
                  have h1 : 2 * (k + 1) = 2 * k + 1 + 1 := by omega
                  rw [h1]
                  simp only [List.getD_cons_succ]
                  refine ih (setPluralStrs ko t.koIdx r0 r1) rs res h hnd.2 ?_ k
                    (by simpa using Nat.lt_of_succ_lt_succ hk)
                  intro u hu
                  rw [setPluralStrs_length]
                  exact hval u (List.mem_cons_of_mem _ hu)

lemma processBatch_frame (backend : String → List String → List String)
    (ko : List POEntry) (batch : List TransTask) (res : List POEntry)
    (calls : List (String × List String))
    (h : processBatch backend ko batch = some (res, calls)) :
    res.length = ko.length ∧
    (∀ j, (∀ t ∈ batch, t.koIdx ≠ j) → res.getD j default = ko.getD j default) ∧
    (∀ j, metaOf (res.getD j default) = metaOf (ko.getD j default)) ∧
    (∀ j, (∀ t ∈ batch, t.kind = TaskKind.singular → t.koIdx ≠ j) →
      (res.getD j default).msgstr = (ko.getD j default).msgstr) ∧
    (∀ j, (∀ t ∈ batch, t.kind = TaskKind.plural → t.koIdx ≠ j) →
      (res.getD j default).msgstr_plural = (ko.getD j default).msgstr_plural) ∧
    (∀ j k, k ≠ 0 → k ≠ 1 →
      pGet (res.getD j default).msgstr_plural k "" =
        pGet (ko.getD j default).msgstr_plural k "") := by
  obtain ⟨ko1, hs, hp, -⟩ := processBatch_inv backend ko batch res calls h
  obtain ⟨hl1, hf1, hm1⟩ := applySingulars_inv _ _ _ _ hs
  obtain ⟨hl2, hf2, hm2⟩ := applyPlurals_inv _ _ _ _ hp
  have hmemS : ∀ t ∈ (batchSplit batch).singular_entries,
      t ∈ batch ∧ t.kind = TaskKind.singular := by
    intro t ht
    rw [batchSplit_eq] at ht
    have := List.mem_filter.1 ht
    exact ⟨this.1, by simpa [isSingularTask] using this.2⟩
  have hmemP : ∀ t ∈ (batchSplit batch).plural_entries,
      t ∈ batch ∧ t.kind = TaskKind.plural := by
    intro t ht
    rw [batchSplit_eq] at ht
    have := List.mem_filter.1 ht
    exact ⟨this.1, by simpa [isPluralTask] using this.2⟩
  refine ⟨hl2.trans hl1, ?_, ?_, ?_, ?_, ?_⟩
  · intro j hj
    have h2 := hf2 j (fun t ht => hj t (hmemP t ht).1)
    have h1 := hf1 j (fun t ht => hj t (hmemS t ht).1)
    rw [h2, h1]
  · intro j
    exact ((hm2 j).1).trans ((hm1 j).1)
  · intro j hj
    have h2 := (hm2 j).2.1
    have h1 := hf1 j (fun t ht => hj t (hmemS t ht).1 (hmemS t ht).2)
    rw [h2, h1]
  · intro j hj
    have h2 := hf2 j (fun t ht => hj t (hmemP t ht).1 (hmemP t ht).2)
    have h1 := (hm1 j).2
    rw [h2, h1]
  · intro j k hk0 hk1
    have h2 := (hm2 j).2.2 k hk0 hk1
    have h1 := (hm1 j).2
    rw [h2, h1]

lemma runBatches_frame (backend : String → List String → List String)
    (bs : List (List TransTask)) :
    ∀ (ko res : List POEntry) (calls : List (String × List String)),
      runBatches backend ko bs = some (res, calls) →
      res.length = ko.length ∧
      (∀ j, (∀ b ∈ bs, ∀ t ∈ b, t.koIdx ≠ j) →
        res.getD j default = ko.getD j default) ∧
      (∀ j, metaOf (res.getD j default) = metaOf (ko.getD j default)) ∧
      (∀ j, (∀ b ∈ bs, ∀ t ∈ b, t.kind = TaskKind.singular → t.koIdx ≠ j) →
        (res.getD j default).msgstr = (ko.getD j default).msgstr) ∧
      (∀ j, (∀ b ∈ bs, ∀ t ∈ b, t.kind = TaskKind.plural → t.koIdx ≠ j) →
        (res.getD j default).msgstr_plural = (ko.getD j default).msgstr_plural) ∧
      (∀ j k, k ≠ 0 → k ≠ 1 →
        pGet (res.getD j default).msgstr_plural k "" =
          pGet (ko.getD j default).msgstr_plural k "") := by
  induction bs with
  | nil =>
      intro ko res calls h
      injection h with h
      injection h with h1 h2
      subst h1
      exact ⟨rfl, fun j _ => rfl, fun j => rfl, fun j _ => rfl, fun j _ => rfl,
        fun j k _ _ => rfl⟩
  | cons b bs ih =>
      intro ko res calls h
      unfold runBatches at h
      split at h
      · exact absurd h (by simp)
      next ko1 c1 hpb =>
        split at h
        · exact absurd h (by simp)
        next ko2 c2 hrb =>
          injection h with h
          injection h with h1 h2
          subst h1
          obtain ⟨pl, pf, pm, ps, pp, pg⟩ := processBatch_frame backend ko b ko1 c1 hpb
          obtain ⟨ql, qf, qm, qs, qp, qg⟩ := ih ko1 ko2 c2 hrb
          refine ⟨ql.trans pl, ?_, ?_, ?_, ?_, ?_⟩
          · intro j hj
            rw [qf j (fun b' hb' t ht => hj b' (List.mem_cons_of_mem _ hb') t ht),
              pf j (hj b (List.mem_cons_self _ _))]
          · intro j
            exact (qm j).trans (pm j)
          · intro j hj
            rw [qs j (fun b' hb' t ht hk => hj b' (List.mem_cons_of_mem _ hb') t ht hk),
              ps j (hj b (List.mem_cons_self _ _))]
          · intro j hj
            rw [qp j (fun b' hb' t ht hk => hj b' (List.mem_cons_of_mem _ hb') t ht hk),
              pp j (hj b (List.mem_cons_self _ _))]
          · intro j k hk0 hk1
            rw [qg j k hk0 hk1, pg j k hk0 hk1]

lemma chunkListFuel_flatten : ∀ (fuel : Nat) (ts : List TransTask),
    ts.length ≤ fuel → (chunkListFuel fuel ts).flatten = ts := by
  intro fuel
  induction fuel with
  | zero =>
      intro ts h
      cases ts with
      | nil => simp [chunkListFuel]
      | cons t rest => simp at h
  | succ n ih =>
      intro ts h
      cases ts with
      | nil => simp [chunkListFuel]
      | cons t rest =>
          rw [chunkListFuel, List.flatten_cons, ih _ ?_, List.take_append_drop]
          simp only [List.length_drop, List.length_cons, BATCH_SIZE]
          simp only [List.length_cons] at h
          omega

lemma chunkList_flatten (ts : List TransTask) : (chunkList ts).flatten = ts :=
  chunkListFuel_flatten ts.length ts (Nat.le_refl _)

lemma mem_chunk_mem (ts : List TransTask) (b : List TransTask)
    (hb : b ∈ chunkList ts) (t : TransTask) (ht : t ∈ b) : t ∈ ts := by
  rw [← chunkList_flatten ts]
  exact List.mem_flatten.2 ⟨b, hb, ht⟩

/-- C10: the batch-translation phase mutates only the translation fields of
entries named by the work list.  For every successful run of the batch loop:
the catalog length is unchanged; every entry keeps its `msgid`,
`msgid_plural`, `occurrences`, `comment` and `obsolete` fields; an entry at
an index no task points to is unchanged entirely; `msgstr` changes only at
indices of singular tasks; `msgstr_plural` changes only at indices of plural
tasks; and even there only the plural slots 0 and 1 are written. -/
theorem C10_batch_frame (backend : String → List String → List String)
    (ts : List TransTask) (ko res : List POEntry)
    (calls : List (String × List String))
    (h : runBatches backend ko (chunkList ts) = some (res, calls)) :
    res.length = ko.length ∧
    (∀ j, (∀ t ∈ ts, t.koIdx ≠ j) → res.getD j default = ko.getD j default) ∧
    (∀ j, metaOf (res.getD j default) = metaOf (ko.getD j default)) ∧
    (∀ j, (∀ t ∈ ts, t.kind = TaskKind.singular → t.koIdx ≠ j) →
      (res.getD j default).msgstr = (ko.getD j default).msgstr) ∧
    (∀ j, (∀ t ∈ ts, t.kind = TaskKind.plural → t.koIdx ≠ j) →
      (res.getD j default).msgstr_plural = (ko.getD j default).msgstr_plural) ∧
    (∀ j k, k ≠ 0 → k ≠ 1 →
      pGet (res.getD j default).msgstr_plural k "" =
        pGet (ko.getD j default).msgstr_plural k "") := by
  obtain ⟨h1, h2, h3, h4, h5, h6⟩ := runBatches_frame backend (chunkList ts) ko res calls h
  exact ⟨h1,
    fun j hj => h2 j (fun b hb t ht => hj t (mem_chunk_mem ts b hb t ht)),
    h3,
    fun j hj => h4 j (fun b hb t ht hk => hj t (mem_chunk_mem ts b hb t ht) hk),
    fun j hj => h5 j (fun b hb t ht hk => hj t (mem_chunk_mem ts b hb t ht) hk),
    h6⟩

/-- C10 witness: a concrete run with one singular task keeps the metadata of
the touched entry and leaves an untouched second entry identical. -/
theorem C10_witness :
    metaOf ((([{ newKoEntry enSave with msgstr := "Save" }, newKoEntry enFiles] :
        List POEntry)).getD 0 default) =
      metaOf (([newKoEntry enSave, newKoEntry enFiles] : List POEntry).getD 0 default) ∧
    (([{ newKoEntry enSave with msgstr := "Save" }, newKoEntry enFiles] :
        List POEntry)).getD 1 default =
      ([newKoEntry enSave, newKoEntry enFiles] : List POEntry).getD 1 default := by
  have h := C10_batch_frame (fun _ l => l)
      [{ kind := TaskKind.singular, en := enSave, koIdx := 0 }]
      [newKoEntry enSave, newKoEntry enFiles]
      [{ newKoEntry enSave with msgstr := "Save" }, newKoEntry enFiles]
      [("ko", ["Save"])] (by decide)
  exact ⟨h.2.2.1 0, h.2.1 1 (by decide)⟩

/-- C4: within a batch, the plural text list interleaves each plural task's
`msgid` at position 2k and `msgid_plural` at position 2k+1 (k-th plural task
of the batch); and on a successful batch the backend's result at index 2k is
written to that task's target entry plural slot 0 and the result at index
2k+1 to plural slot 1.  The hypotheses ask that the plural tasks of the
batch point at pairwise distinct, in-range target indices, as the
reconciler produces for well-formed catalogs. -/
theorem C4_plural_interleave (backend : String → List String → List String)
    (batch : List TransTask) (ko res : List POEntry)
    (calls : List (String × List String))
    (h : processBatch backend ko batch = some (res, calls))
    (hnd : ((batch.filter isPluralTask).map (fun t => t.koIdx)).Nodup)
    (hval : ∀ t ∈ batch.filter isPluralTask, t.koIdx < ko.length) :
    (∀ k, k < (batch.filter isPluralTask).length →
      (batchSplit batch).plural_texts.getD (2 * k) "" =
        ((batch.filter isPluralTask).getD k default).en.msgid ∧
      (batchSplit batch).plural_texts.getD (2 * k + 1) "" =
        ((batch.filter isPluralTask).getD k default).en.msgid_plural) ∧
    (∀ k, k < (batch.filter isPluralTask).length →
      pGet ((res.getD ((batch.filter isPluralTask).getD k default).koIdx
          default).msgstr_plural) 0 "" =
        (backend TARGET_LANG (batchSplit batch).plural_texts).getD (2 * k) "" ∧
      pGet ((res.getD ((batch.filter isPluralTask).getD k default).koIdx
          default).msgstr_plural) 1 "" =
        (backend TARGET_LANG (batchSplit batch).plural_texts).getD (2 * k + 1) "") := by
  constructor
  · intro k hk
    rw [batchSplit_eq]
    exact flatMap_pair_getD (fun t => t.en.msgid) (fun t => t.en.msgid_plural)
      (batch.filter isPluralTask) k hk
  · intro k hk
    have hne : (batchSplit batch).plural_texts ≠ [] := by
      rw [batchSplit_eq]
      dsimp only
      intro hnil
      have hlen := flatMap_pair_length (batch.filter isPluralTask)
        (fun t => t.en.msgid) (fun t => t.en.msgid_plural)
      rw [hnil] at hlen
      simp only [List.length_nil] at hlen
      omega
    obtain ⟨ko1, hs, hp, -⟩ := processBatch_inv backend ko batch res calls h
    rw [if_pos hne] at hp
    unfold translate_texts at hp
    rw [if_neg hne] at hp
    have hl1 := (applySingulars_inv _ _ _ _ hs).1
    have hentries : (batchSplit batch).plural_entries = batch.filter isPluralTask := by
      rw [batchSplit_eq]
    rw [hentries] at hp
    refine applyPlurals_values (batch.filter isPluralTask) ko1
      (backend TARGET_LANG (batchSplit batch).plural_texts) res hp hnd ?_ k hk
    intro t ht
    rw [hl1]
    exact hval t ht

/-- C4 witness: one plural task, a backend that appends an exclamation
mark; the interleaved request is `msgid` then `msgid_plural`, and slots 0
and 1 of the target entry receive the two results in order. -/
theorem C4_witness :
    pGet ((([{ newKoEntry enFiles with
          msgstr_plural := [(0, "1 file!"), (1, "{n} files!")] }] : List POEntry).getD 0
        default).msgstr_plural) 0 "" = "1 file!" ∧
    pGet ((([{ newKoEntry enFiles with
          msgstr_plural := [(0, "1 file!"), (1, "{n} files!")] }] : List POEntry).getD 0
        default).msgstr_plural) 1 "" = "{n} files!" := by
  have h := (C4_plural_interleave (fun _ l => l.map (fun s => s ++ "!"))
      [{ kind := TaskKind.plural, en := enFiles, koIdx := 0 }]
      [newKoEntry enFiles]
      [{ newKoEntry enFiles with msgstr_plural := [(0, "1 file!"), (1, "{n} files!")] }]
      [("ko", ["1 file", "{n} files"])]
      (by decide) (by decide) (by decide)).2 0 (by decide)
  exact ⟨h.1.trans (by decide), h.2.trans (by decide)⟩

/-! Claim C2: which target entries share the source entry's fields -/

lemma reconcile_fold_ko_prefix (l : List POEntry) :
    ∀ st : RecState, ∃ ext, (l.foldl reconcileStep st).ko = st.ko ++ ext := by
  induction l with
  | nil => intro st; exact ⟨[], by simp⟩
  | cons e l ih =>
      intro st
      rw [List.foldl_cons]
      obtain ⟨ext2, h2⟩ := ih (reconcileStep st e)
      rcases reconcileStep_ko st e with h | ⟨h, _, _⟩
      · exact ⟨ext2, by rw [h2, h]⟩
      · exact ⟨newKoEntry e :: ext2, by rw [h2, h, List.append_assoc]; rfl⟩

lemma reconcile_fold_new_entries (l : List POEntry) :
    ∀ (st : RecState) (i : Nat), st.ko.length ≤ i →
      i < (l.foldl reconcileStep st).ko.length →
      ∃ e ∈ l, (l.foldl reconcileStep st).ko.getD i default = newKoEntry e := by
  induction l with
  | nil =>
      intro st i h1 h2
      simp only [List.foldl_nil] at h2
      omega
  | cons e l ih =>
      intro st i h1 h2
      rw [List.foldl_cons] at h2 ⊢
      by_cases hi : i < (reconcileStep st e).ko.length
      · rcases reconcileStep_ko st e with h | ⟨h, _, _⟩
        · rw [h] at hi; omega
        · have hieq : i = st.ko.length := by
            rw [h, List.length_append, List.length_cons, List.length_nil] at hi
            omega
          obtain ⟨ext, hext⟩ := reconcile_fold_ko_prefix l (reconcileStep st e)
          refine ⟨e, List.mem_cons_self e l, ?_⟩
          rw [hext, getD_append_left _ _ _ _ hi, h, hieq, getD_append_length]
      · obtain ⟨e', he', heq⟩ := ih (reconcileStep st e) i (Nat.le_of_not_lt hi) h2
        exact ⟨e', List.mem_cons_of_mem _ he', heq⟩

/-- Source entry with metadata that differs from the stale pre-existing
target entry `koSaveStale`; used to refute the original claim C2. -/
def enSaveMeta : POEntry :=
  { msgid := "Save", msgid_plural := "", msgstr := "", msgstr_plural := [],
    occurrences := [("src/ui.tsx", "10")], comment := "new comment",
    obsolete := false }

/-- Pre-existing target entry whose `occurrences` and `comment` are out of
date with respect to the source entry `enSaveMeta`. -/
def koSaveStale : POEntry :=
  { msgid := "Save", msgid_plural := "", msgstr := "", msgstr_plural := [],
    occurrences := [], comment := "old comment", obsolete := false }

/-- C2 counterexample: a full run over a source entry whose target entry
already exists with a stale comment leaves the stale comment in place, so a
pre-existing target entry does not share `comment` (nor `occurrences`) with
its source entry after the run, refuting the claim for pre-existing
entries. -/
theorem C2_counterexample :
    pipeline (fun _ l => l) [enSaveMeta] [koSaveStale] =
      some [{ koSaveStale with msgstr := "Save" }] ∧
    ({ koSaveStale with msgstr := "Save" } : POEntry).msgid = enSaveMeta.msgid ∧
    ({ koSaveStale with msgstr := "Save" } : POEntry).comment ≠ enSaveMeta.comment ∧
    ({ koSaveStale with msgstr := "Save" } : POEntry).occurrences ≠
      enSaveMeta.occurrences := by
  refine ⟨by decide, rfl, by decide, by decide⟩

/-- C2 (amended): every target entry newly created by the reconciler keeps
the `msgid`, `msgid_plural`, `occurrences` and `comment` of the source entry
it was created from, and the batch-translation phase never changes those
fields, so after a full run the new entries still share them; pre-existing
target entries are guaranteed to share only the `msgid` (their other
metadata is left as loaded and may differ from the source).  Newly created
entries are exactly those at indices at or beyond the initial target
catalog length. -/
theorem C2_new_entry_fields (backend : String → List String → List String)
    (en_po ko_po res : List POEntry)
    (h : pipeline backend en_po ko_po = some res)
    (i : Nat) (h1 : ko_po.length ≤ i) (h2 : i < res.length) :
    ∃ e ∈ en_po,
      (res.getD i default).msgid = e.msgid ∧
      (res.getD i default).msgid_plural = e.msgid_plural ∧
      (res.getD i default).occurrences = e.occurrences ∧
      (res.getD i default).comment = e.comment := by
  simp only [pipeline] at h
  cases hrb : runBatches backend (reconcile en_po ko_po).ko
      (chunkList (reconcile en_po ko_po).targets) with
  | none => rw [hrb] at h; cases h
  | some p =>
      obtain ⟨ko2, calls⟩ := p
      rw [hrb] at h
      injection h with h
      subst h
      obtain ⟨hlen, -, hmeta, -⟩ :=
        runBatches_frame backend _ _ _ _ hrb
      have hi : i < (reconcile en_po ko_po).ko.length := by
        rw [← hlen]; exact h2
      obtain ⟨e, he, hnew⟩ := reconcile_fold_new_entries en_po (initState ko_po) i h1 hi
      have hnew2 : (reconcile en_po ko_po).ko.getD i default = newKoEntry e := hnew
      have hm := hmeta i
      rw [hnew2] at hm
      simp only [metaOf, newKoEntry, Prod.mk.injEq] at hm
      exact ⟨e, he, hm.1, hm.2.1, hm.2.2.1, hm.2.2.2.1⟩

/-- C2 witness: a fresh target catalog; the newly created entry shares all
four fields with its source entry after the full run. -/
theorem C2_witness :
    ∃ e ∈ [enSaveMeta],
      ((([{ newKoEntry enSaveMeta with msgstr := "Save" }] : List POEntry)).getD 0
          default).msgid = e.msgid ∧
      ((([{ newKoEntry enSaveMeta with msgstr := "Save" }] : List POEntry)).getD 0
          default).msgid_plural = e.msgid_plural ∧
      ((([{ newKoEntry enSaveMeta with msgstr := "Save" }] : List POEntry)).getD 0
          default).occurrences = e.occurrences ∧
      ((([{ newKoEntry enSaveMeta with msgstr := "Save" }] : List POEntry)).getD 0
          default).comment = e.comment :=
  C2_new_entry_fields (fun _ l => l) [enSaveMeta] []
    [{ newKoEntry enSaveMeta with msgstr := "Save" }] (by decide) 0
    (by decide) (by decide)
